import Mathlib

/-!
Verification of core algorithms of the JRTPLIB TCP transmission subsystem:

* time handling and NTP conversion (`rtptimeutilities.h`),
* the abort-descriptor pair (`rtpabortdescriptors.cpp`),
* RFC 4571 stream reassembly (`RTPTCPTransmitter::SocketData`),
* the generic keyed hash container (`rtpkeyhashtable.h`).

The C++ `double` time values are embedded as exact rationals; the C casts the
source performs (`(uint32_t)x`, `(int64_t)x`, unsigned wraparound) are made
explicit.  Stateful code (the clock cache, the abort channel, the hash table)
is embedded as explicit state passing, with operating-system effects (clock
samples, syscall outcomes, select readiness) supplied as oracle inputs.
-/

namespace JRTP

/-! ## Time utilities (`rtptimeutilities.h`) -/

/-- `RTP_NTPTIMEOFFSET` from `rtptimeutilities.h`: seconds between the NTP
epoch (1900) and the Unix epoch (1970). -/
def RTP_NTPTIMEOFFSET : ℕ := 2208988800

/-- C truncation toward zero of a floating-point value, as performed by a cast
such as `(int64_t)x`. -/
def ctrunc (q : ℚ) : ℤ := if 0 ≤ q then ⌊q⌋ else ⌈q⌉

/-- C cast of a floating-point value to `uint32_t`: truncation toward zero,
reduced modulo `2^32`.  (All in-range casts appearing in the claims are
unaffected by the reduction.) -/
def castUInt32 (q : ℚ) : ℕ := (ctrunc q).toNat % 4294967296

/-- `RTPTime::GetMicroSeconds` (rtptimeutilities.h, lines 135-156).  The stored
`double m_t` is the rational `t`; the two branches are the source's
`m_t >= 0` / `m_t < 0` branches, and the final test is the source's clamp
`if (microsec >= 1000000) return 999999`. -/
def GetMicroSeconds (t : ℚ) : ℕ :=
  let microsec : ℕ :=
    if 0 ≤ t then
      castUInt32 (1000000 * (t - ((ctrunc t : ℤ) : ℚ)) + 1/2)
    else
      castUInt32 (1000000 * ((-t) - ((ctrunc (-t) : ℤ) : ℚ)) + 1/2)
  if 1000000 ≤ microsec then 999999 else microsec

/-- `RTPTime::RTPTime(RTPNTPTime)` (rtptimeutilities.h, lines 111-128):
conversion from an NTP `(msw, lsw)` pair to a time value. -/
def RTPTimeFromNTP (msw lsw : ℕ) : ℚ :=
  if msw < RTP_NTPTIMEOFFSET then 0
  else
    let sec : ℕ := msw - RTP_NTPTIMEOFFSET
    let microsec : ℕ := castUInt32 ((lsw : ℚ) / (65536 * 65536) * 1000000)
    (sec : ℚ) + (1/1000000) * (microsec : ℚ)

/-- `RTPTime::GetNTPTime` (rtptimeutilities.h, lines 238-252).  `sec` and the
microsecond count are obtained by `uint32_t` casts; `msw = sec +
RTP_NTPTIMEOFFSET` is computed in unsigned 64-bit arithmetic and stored in a
`uint32_t`, hence reduced modulo `2^32`. -/
def GetNTPTime (t : ℚ) : ℕ × ℕ :=
  let sec : ℕ := castUInt32 t
  let microsec : ℕ := castUInt32 ((t - (sec : ℚ)) * 1000000)
  ((sec + RTP_NTPTIMEOFFSET) % 4294967296,
   castUInt32 ((microsec : ℚ) / 1000000 * (65536 * 65536)))

/-- State of the static locals of `RTPTime::CurrentTime`
(`s_initialized`, `s_startOffet`). -/
structure ClockState where
  flag : Bool
  startOffset : ℚ
  deriving DecidableEq, Repr

/-- The initial state of the static locals of `RTPTime::CurrentTime`. -/
def initialClockState : ClockState := ⟨false, 0⟩

/-- `RTPTime::CurrentTime` (rtptimeutilities.h, lines 166-193,
`RTP_HAVE_CLOCK_GETTIME` variant).  The clock samples that
`clock_gettime(CLOCK_REALTIME)` / `clock_gettime(CLOCK_MONOTONIC)` would
deliver are supplied as the oracle inputs `tSys` and `tMono`; the function
returns the value produced together with the updated static state.  (In the
initialized branch the source samples only the monotonic clock; `tSys` is
ignored there.) -/
def CurrentTime (st : ClockState) (tSys tMono : ℚ) : ℚ × ClockState :=
  if !st.flag then
    (tSys, ⟨true, tSys - tMono⟩)
  else
    (tMono + st.startOffset, st)

/-- `RTPTime::Wait` (rtptimeutilities.h, lines 206-224): the total number of
nanoseconds requested from `nanosleep`, i.e. `sec * 10^9 + nanosec` with
`sec = (uint64_t)delay.m_t` and `nanosec = (uint32_t)(1e9*(delay.m_t-sec))`. -/
def waitRequestNanos (d : ℚ) : ℕ :=
  (ctrunc d).toNat * 1000000000
    + castUInt32 ((d - (((ctrunc d).toNat : ℕ) : ℚ)) * 1000000000)

/-- The `nanosleep` retry loop of `RTPTime::Wait`.  The oracle list gives, for
each successive `nanosleep` call, how many nanoseconds elapse before an
`EINTR` interruption; an entry that is not smaller than the remaining request
means that call completes uninterrupted (as does exhausting the list).  On
`EINTR` the source retries with the remaining time (`req = rem`).  Returns
the total number of nanoseconds actually slept. -/
def nanosleepLoop : ℕ → List ℕ → ℕ
  | req, [] => req
  | req, a :: rest => if a < req then a + nanosleepLoop (req - a) rest else req

/-- `RTPTime::Wait` (rtptimeutilities.h, lines 206-224): the number of
nanoseconds slept, given the interruption oracle.  The source returns
immediately when `delay.m_t <= 0`. -/
def Wait (d : ℚ) (interrupts : List ℕ) : ℕ :=
  if d ≤ 0 then 0 else nanosleepLoop (waitRequestNanos d) interrupts

/-! ### Basic facts about the casts -/

theorem ctrunc_eq_floor {q : ℚ} (h : 0 ≤ q) : ctrunc q = ⌊q⌋ := if_pos h

theorem castUInt32_eq_floor {q : ℚ} (h0 : 0 ≤ q) (h1 : q < 4294967296) :
    (castUInt32 q : ℤ) = ⌊q⌋ := by
  have hfl : 0 ≤ ⌊q⌋ := Int.floor_nonneg.mpr h0
  have hlt : ⌊q⌋ < 4294967296 := by
    have h2 : (⌊q⌋ : ℚ) < 4294967296 := lt_of_le_of_lt (Int.floor_le q) h1
    exact_mod_cast h2
  have hmod : (⌊q⌋.toNat) % 4294967296 = ⌊q⌋.toNat := by
    apply Nat.mod_eq_of_lt
    omega
  unfold castUInt32
  rw [ctrunc_eq_floor h0, hmod]
  omega

/-! ### Claim C10: `GetMicroSeconds` -/

/-- Claim C10: for every stored time value `t` (positive or negative, and even
when the fractional part rounds up to a full second), `GetMicroSeconds`
returns the fractional part of the magnitude `|t|` rounded to the nearest
microsecond (half up), clamped to `[0, 999999]`; in particular the result
never reaches `1000000`. -/
theorem getMicroSeconds_rounds_frac (t : ℚ) :
    GetMicroSeconds t
      = min 999999 (⌊1000000 * (|t| - (⌊|t|⌋ : ℚ)) + 1/2⌋).toNat ∧
    GetMicroSeconds t ≤ 999999 := by
  have main : ∀ u : ℚ, 0 ≤ u →
      castUInt32 (1000000 * (u - ((ctrunc u : ℤ) : ℚ)) + 1/2)
        = (⌊1000000 * (u - (⌊u⌋ : ℚ)) + 1/2⌋).toNat ∧
      (⌊1000000 * (u - (⌊u⌋ : ℚ)) + 1/2⌋).toNat ≤ 1000000 := by
    intro u hu
    have hf0 : (0:ℚ) ≤ u - (⌊u⌋ : ℚ) := by
      have := Int.floor_le u; linarith
    have hf1 : u - (⌊u⌋ : ℚ) < 1 := by
      have := Int.lt_floor_add_one u; linarith
    have hv0 : (0:ℚ) ≤ 1000000 * (u - (⌊u⌋ : ℚ)) + 1/2 := by linarith
    have hv1 : 1000000 * (u - (⌊u⌋ : ℚ)) + 1/2 < 4294967296 := by linarith
    have hcast := castUInt32_eq_floor hv0 hv1
    have hle : ⌊1000000 * (u - (⌊u⌋ : ℚ)) + 1/2⌋ < 1000001 := by
      rw [Int.floor_lt]
      push_cast
      linarith
    rw [ctrunc_eq_floor hu]
    constructor
    · omega
    · omega
  rcases le_or_lt 0 t with ht | ht
  · have habs : |t| = t := abs_of_nonneg ht
    obtain ⟨h1, h2⟩ := main t ht
    simp only [GetMicroSeconds, if_pos ht, habs]
    rw [h1, Nat.min_def]
    split_ifs <;> omega
  · have habs : |t| = -t := abs_of_neg ht
    obtain ⟨h1, h2⟩ := main (-t) (by linarith)
    simp only [GetMicroSeconds, if_neg (not_le.mpr ht), habs]
    rw [h1, Nat.min_def]
    split_ifs <;> omega

/-! ### Claim C6: NTP-to-time conversion -/

/-- Claim C6: converting an NTP pair `(msw, lsw)` to a time value yields `0`
whenever `msw < 2208988800`; otherwise it yields
`(msw - 2208988800) + lsw * 2^-32` quantized to microsecond resolution:
the exact result is `(msw - 2208988800)` plus `⌊lsw * 10^6 / 2^32⌋`
microseconds, which is within `1 µs` below the untruncated value. -/
theorem fromNTP_spec (msw lsw : ℕ) (hl : lsw < 4294967296) :
    (msw < 2208988800 → RTPTimeFromNTP msw lsw = 0) ∧
    (2208988800 ≤ msw →
      RTPTimeFromNTP msw lsw
          = ((msw : ℚ) - 2208988800)
            + (1/1000000) * ((⌊(lsw : ℚ) / 4294967296 * 1000000⌋ : ℤ) : ℚ) ∧
      0 ≤ (((msw : ℚ) - 2208988800) + (lsw : ℚ) / 4294967296)
            - RTPTimeFromNTP msw lsw ∧
      (((msw : ℚ) - 2208988800) + (lsw : ℚ) / 4294967296)
            - RTPTimeFromNTP msw lsw < 1/1000000) := by
  constructor
  · intro h
    have hlt : msw < RTP_NTPTIMEOFFSET := by unfold RTP_NTPTIMEOFFSET; omega
    simp [RTPTimeFromNTP, hlt]
  · intro h
    have hdef : RTPTimeFromNTP msw lsw
        = ((msw : ℚ) - 2208988800)
          + (1/1000000) * ((castUInt32 ((lsw : ℚ) / 4294967296 * 1000000) : ℕ) : ℚ) := by
      unfold RTPTimeFromNTP RTP_NTPTIMEOFFSET
      rw [if_neg (by omega)]
      show ((msw - 2208988800 : ℕ) : ℚ)
          + (1/1000000) * ((castUInt32 ((lsw : ℚ) / (65536 * 65536) * 1000000) : ℕ) : ℚ)
        = _
      rw [Nat.cast_sub h]
      norm_num
    have hlQ : (lsw : ℚ) < 4294967296 := by exact_mod_cast hl
    have hy0 : (0:ℚ) ≤ (lsw : ℚ) / 4294967296 * 1000000 := by positivity
    have hyd : (lsw : ℚ) / 4294967296 * 1000000 < 1000000 := by
      have hdiv : (lsw : ℚ) / 4294967296 < 1 := by
        rw [div_lt_one (by norm_num)]; exact hlQ
      have := mul_lt_mul_of_pos_right hdiv (show (0:ℚ) < 1000000 by norm_num)
      linarith
    have hcast : (castUInt32 ((lsw : ℚ) / 4294967296 * 1000000) : ℤ)
        = ⌊(lsw : ℚ) / 4294967296 * 1000000⌋ :=
      castUInt32_eq_floor hy0 (by linarith)
    have hcastQ : ((castUInt32 ((lsw : ℚ) / 4294967296 * 1000000) : ℕ) : ℚ)
        = ((⌊(lsw : ℚ) / 4294967296 * 1000000⌋ : ℤ) : ℚ) := by exact_mod_cast hcast
    have hfl_le : ((⌊(lsw : ℚ) / 4294967296 * 1000000⌋ : ℤ) : ℚ)
        ≤ (lsw : ℚ) / 4294967296 * 1000000 := Int.floor_le _
    have hfl_gt : (lsw : ℚ) / 4294967296 * 1000000 - 1
        < ((⌊(lsw : ℚ) / 4294967296 * 1000000⌋ : ℤ) : ℚ) := Int.sub_one_lt_floor _
    refine ⟨by rw [hdef, hcastQ], ?_, ?_⟩
    · rw [hdef, hcastQ]
      linarith
    · rw [hdef, hcastQ]
      linarith

/-- Witness for claim C6 at the concrete pair `(2208988801, 2147483648)`. -/
theorem fromNTP_spec_witness :
    RTPTimeFromNTP 2208988801 2147483648
      = (((2208988801 : ℕ) : ℚ) - 2208988800)
        + (1/1000000) * ((⌊((2147483648 : ℕ) : ℚ) / 4294967296 * 1000000⌋ : ℤ) : ℚ) :=
  ((fromNTP_spec 2208988801 2147483648 (by norm_num)).2 (by norm_num)).1

/-! ### Claim C2: NTP round trip -/

/-- Claim C2 counterexample: the round trip through `GetNTPTime` and
`RTPTimeFromNTP` is not within `±1 µs` on all of `[0, 2^31]` seconds.
At `t = 3/2000000 s` (1.5 µs) the reconstructed value is `0`, an error of
1.5 µs, because the microsecond count is truncated once on the way to the
NTP fraction and once more on the way back.  At `t = 2^31 s` the `uint32`
computation `msw = sec + 2208988800` wraps around, `msw` falls below the
NTP offset, and the conversion back yields `0`. -/
theorem ntp_roundtrip_counterexample :
    ¬ (|(3/2000000 : ℚ)
          - RTPTimeFromNTP (GetNTPTime (3/2000000)).1 (GetNTPTime (3/2000000)).2|
        ≤ 1/1000000) ∧
    RTPTimeFromNTP (GetNTPTime (2147483648 : ℚ)).1 (GetNTPTime (2147483648 : ℚ)).2 = 0
    ∧ (0:ℚ) ≤ 3/2000000 ∧ (3/2000000 : ℚ) ≤ 2^31 ∧ (2147483648 : ℚ) = 2^31 := by
  have h1 : GetNTPTime (3/2000000) = (2208988800, 4294) := by
    have e1 : castUInt32 (3/2000000) = 0 := by norm_num [castUInt32, ctrunc]
    have e2 : castUInt32 ((3/2000000 - ((0:ℕ):ℚ)) * 1000000) = 1 := by
      norm_num [castUInt32, ctrunc]
    have e3 : castUInt32 (((1:ℕ):ℚ) / 1000000 * (65536 * 65536)) = 4294 := by
      norm_num [castUInt32, ctrunc]
      decide
    simp only [GetNTPTime]
    rw [e1, e2, e3]
    norm_num [RTP_NTPTIMEOFFSET]
  have h2 : RTPTimeFromNTP 2208988800 4294 = 0 := by
    norm_num [RTPTimeFromNTP, castUInt32, ctrunc, RTP_NTPTIMEOFFSET]
  have h3 : GetNTPTime (2147483648 : ℚ) = (61505152, 0) := by
    have e1 : castUInt32 (2147483648 : ℚ) = 2147483648 := by
      norm_num [castUInt32, ctrunc]
      decide
    have e2 : castUInt32 (((2147483648:ℚ) - ((2147483648:ℕ):ℚ)) * 1000000) = 0 := by
      norm_num [castUInt32, ctrunc]
    have e3 : castUInt32 (((0:ℕ):ℚ) / 1000000 * (65536 * 65536)) = 0 := by
      norm_num [castUInt32, ctrunc]
    simp only [GetNTPTime]
    rw [e1, e2, e3]
    norm_num [RTP_NTPTIMEOFFSET]
  have h4 : RTPTimeFromNTP 61505152 0 = 0 := by
    norm_num [RTPTimeFromNTP, RTP_NTPTIMEOFFSET]
  rw [h1, h3]
  norm_num [h2, h4]
  rw [show |(3/2000000 : ℚ)| = 3/2000000 from abs_of_pos (by norm_num)]
  norm_num

/-- Claim C2 (amended): for every `t ∈ [0, 2085978496)` seconds (so that
`⌊t⌋ + 2208988800` still fits in a `uint32`), converting `t` to NTP format
with `GetNTPTime` and back with `RTPTimeFromNTP` yields a value that is at
most `t`, short of it by less than 2 µs. -/
theorem ntp_roundtrip_amended (t : ℚ) (h0 : 0 ≤ t) (h1 : t < 2085978496) :
    0 ≤ t - RTPTimeFromNTP (GetNTPTime t).1 (GetNTPTime t).2 ∧
    t - RTPTimeFromNTP (GetNTPTime t).1 (GetNTPTime t).2 < 2/1000000 := by
  have hsec : (castUInt32 t : ℤ) = ⌊t⌋ := castUInt32_eq_floor h0 (by linarith)
  set n : ℕ := castUInt32 t with hn
  have hnQ : (n : ℚ) = ((⌊t⌋ : ℤ) : ℚ) := by exact_mod_cast hsec
  have hf0 : (0:ℚ) ≤ t - (n:ℚ) := by
    rw [hnQ]; have := Int.floor_le t; linarith
  have hf1 : t - (n:ℚ) < 1 := by
    rw [hnQ]; have := Int.lt_floor_add_one t; linarith
  have hnlt : n < 2085978496 := by
    have h2 : (n:ℚ) < 2085978496 := by
      rw [hnQ]; have := Int.floor_le t; linarith
    exact_mod_cast h2
  -- the microsecond count taken on the way in
  have hm0 : (0:ℚ) ≤ (t - (n:ℚ)) * 1000000 := mul_nonneg hf0 (by norm_num)
  have hmtop : (t - (n:ℚ)) * 1000000 < 1000000 := by
    have := mul_lt_mul_of_pos_right hf1 (show (0:ℚ) < 1000000 by norm_num)
    linarith
  set m : ℕ := castUInt32 ((t - (n:ℚ)) * 1000000) with hm
  have hmZ : (m:ℤ) = ⌊(t - (n:ℚ)) * 1000000⌋ :=
    castUInt32_eq_floor hm0 (by linarith)
  have hmQle : (m:ℚ) ≤ (t - (n:ℚ)) * 1000000 := by
    have h2 : ((m:ℤ):ℚ) ≤ (t - (n:ℚ)) * 1000000 := by
      rw [hmZ]; exact Int.floor_le _
    exact_mod_cast h2
  have hmQgt : (t - (n:ℚ)) * 1000000 - 1 < (m:ℚ) := by
    have h2 : (t - (n:ℚ)) * 1000000 - 1 < ((m:ℤ):ℚ) := by
      rw [hmZ]; exact Int.sub_one_lt_floor _
    exact_mod_cast h2
  have hmlt : (m:ℚ) < 1000000 := by linarith
  -- the NTP fraction word
  have hx0 : (0:ℚ) ≤ (m:ℚ) / 1000000 * (65536 * 65536) := by positivity
  have hx1 : (m:ℚ) / 1000000 * (65536 * 65536) < 4294967296 := by
    have hmd : (m:ℚ) / 1000000 < 1 := by
      rw [div_lt_one (by norm_num)]; exact hmlt
    have := mul_lt_mul_of_pos_right hmd (show (0:ℚ) < 65536 * 65536 by norm_num)
    linarith
  set l : ℕ := castUInt32 ((m:ℚ) / 1000000 * (65536 * 65536)) with hl
  have hlZ : (l:ℤ) = ⌊(m:ℚ) / 1000000 * (65536 * 65536)⌋ :=
    castUInt32_eq_floor hx0 hx1
  have hlQle : (l:ℚ) ≤ (m:ℚ) / 1000000 * (65536 * 65536) := by
    have h2 : ((l:ℤ):ℚ) ≤ (m:ℚ) / 1000000 * (65536 * 65536) := by
      rw [hlZ]; exact Int.floor_le _
    exact_mod_cast h2
  have hlQgt : (m:ℚ) / 1000000 * (65536 * 65536) - 1 < (l:ℚ) := by
    have h2 : (m:ℚ) / 1000000 * (65536 * 65536) - 1 < ((l:ℤ):ℚ) := by
      rw [hlZ]; exact Int.sub_one_lt_floor _
    exact_mod_cast h2
  -- the microsecond count recovered on the way back
  have hx'le : (l:ℚ) / (65536 * 65536) * 1000000 ≤ (m:ℚ) := by
    rw [div_mul_eq_mul_div, div_le_iff₀ (show (0:ℚ) < 65536 * 65536 by norm_num)]
    rw [div_mul_eq_mul_div, le_div_iff₀ (show (0:ℚ) < 1000000 by norm_num)] at hlQle
    linarith
  have hx'gt : (m:ℚ) - 1 < (l:ℚ) / (65536 * 65536) * 1000000 := by
    rw [div_mul_eq_mul_div, lt_div_iff₀ (show (0:ℚ) < 65536 * 65536 by norm_num)]
    rw [div_mul_eq_mul_div] at hlQgt
    have h5 := mul_lt_mul_of_pos_right hlQgt (show (0:ℚ) < 1000000 by norm_num)
    have e1 : ((m:ℚ) * (65536 * 65536) / 1000000) * 1000000 = (m:ℚ) * (65536 * 65536) :=
      div_mul_cancel₀ _ (by norm_num)
    nlinarith [h5, e1]
  have hx'0 : (0:ℚ) ≤ (l:ℚ) / (65536 * 65536) * 1000000 := by positivity
  have hm'Z : (castUInt32 ((l:ℚ) / (65536 * 65536) * 1000000) : ℤ)
      = ⌊(l:ℚ) / (65536 * 65536) * 1000000⌋ :=
    castUInt32_eq_floor hx'0 (by linarith)
  have hm'le : ((castUInt32 ((l:ℚ) / (65536 * 65536) * 1000000) : ℕ) : ℚ) ≤ (m:ℚ) := by
    have h2 : ⌊(l:ℚ) / (65536 * 65536) * 1000000⌋ ≤ (m:ℤ) := by
      have h3 := Int.floor_mono hx'le
      rwa [Int.floor_natCast] at h3
    have h4 : ((castUInt32 ((l:ℚ) / (65536 * 65536) * 1000000) : ℕ) : ℤ) ≤ (m:ℤ) := by
      rw [hm'Z]; exact h2
    exact_mod_cast h4
  have hm'ge : (m:ℚ) - 1 ≤ ((castUInt32 ((l:ℚ) / (65536 * 65536) * 1000000) : ℕ) : ℚ) := by
    have h2 : (m:ℤ) - 1 ≤ ⌊(l:ℚ) / (65536 * 65536) * 1000000⌋ := by
      apply Int.le_floor.mpr
      push_cast
      linarith
    have h3 : (m:ℤ) - 1 ≤ ((castUInt32 ((l:ℚ) / (65536 * 65536) * 1000000) : ℕ) : ℤ) := by
      rw [hm'Z]; exact h2
    exact_mod_cast h3
  -- assemble the round trip
  have hpair : GetNTPTime t = ((n + RTP_NTPTIMEOFFSET) % 4294967296, l) := rfl
  have hmod : (n + RTP_NTPTIMEOFFSET) % 4294967296 = n + 2208988800 := by
    unfold RTP_NTPTIMEOFFSET
    apply Nat.mod_eq_of_lt
    omega
  have hres : RTPTimeFromNTP (n + 2208988800) l
      = (n:ℚ) + (1/1000000) * ((castUInt32 ((l:ℚ) / (65536 * 65536) * 1000000) : ℕ) : ℚ) := by
    unfold RTPTimeFromNTP RTP_NTPTIMEOFFSET
    rw [if_neg (by omega)]
    simp
  rw [hpair, hmod, hres]
  constructor
  · linarith [hm'le, hmQle]
  · linarith [hm'ge, hmQgt]

/-- Witness for the amended claim C2 at `t = 1/2`. -/
theorem ntp_roundtrip_amended_witness :
    0 ≤ (1/2 : ℚ) - RTPTimeFromNTP (GetNTPTime (1/2)).1 (GetNTPTime (1/2)).2 ∧
    (1/2 : ℚ) - RTPTimeFromNTP (GetNTPTime (1/2)).1 (GetNTPTime (1/2)).2 < 2/1000000 :=
  ntp_roundtrip_amended (1/2) (by norm_num) (by norm_num)

/-! ### Claim C3: `CurrentTime` -/

/-- Claim C3: starting from the uninitialized static state, the first call to
`CurrentTime` returns the realtime sample and records
`offset = realtime - monotonic`; every later call returns the current
monotonic sample plus that recorded offset, leaves the state unchanged, is
independent of the realtime clock (wallclock jumps do not affect it), and two
later calls differ exactly by the difference of their monotonic samples. -/
theorem currentTime_monotonic_offset (t1s t1m t2s t2s' t2m t3s t3m : ℚ) :
    (CurrentTime initialClockState t1s t1m).1 = t1s ∧
    (CurrentTime initialClockState t1s t1m).2 = ⟨true, t1s - t1m⟩ ∧
    (CurrentTime ⟨true, t1s - t1m⟩ t2s t2m).1 = t2m + (t1s - t1m) ∧
    (CurrentTime ⟨true, t1s - t1m⟩ t2s t2m).2 = ⟨true, t1s - t1m⟩ ∧
    (CurrentTime ⟨true, t1s - t1m⟩ t2s t2m).1
      = (CurrentTime ⟨true, t1s - t1m⟩ t2s' t2m).1 ∧
    (CurrentTime ⟨true, t1s - t1m⟩ t3s t3m).1
      - (CurrentTime ⟨true, t1s - t1m⟩ t2s t2m).1 = t3m - t2m := by
  refine ⟨rfl, rfl, rfl, rfl, rfl, ?_⟩
  show (t3m + (t1s - t1m)) - (t2m + (t1s - t1m)) = t3m - t2m
  ring

/-! ### Claim C7: `Wait` -/

theorem nanosleepLoop_total (req : ℕ) (l : List ℕ) : nanosleepLoop req l = req := by
  induction l generalizing req with
  | nil => rfl
  | cons a rest ih =>
    simp only [nanosleepLoop]
    split_ifs with h
    · rw [ih]; omega
    · rfl

/-- Claim C7: `Wait d` with `d ≤ 0` returns immediately without sleeping; with
`d > 0` it sleeps, across any pattern of `EINTR` interruptions, for exactly
the requested interval, which is `d` truncated to the nanosecond. -/
theorem wait_sleeps_full_interval (d : ℚ) (interrupts : List ℕ) :
    (d ≤ 0 → Wait d interrupts = 0) ∧
    (0 < d → Wait d interrupts = waitRequestNanos d ∧
      ((waitRequestNanos d : ℕ) : ℚ) ≤ d * 1000000000 ∧
      d * 1000000000 < ((waitRequestNanos d : ℕ) : ℚ) + 1) := by
  constructor
  · intro h
    simp [Wait, h]
  · intro h
    have hd0 : 0 ≤ d := le_of_lt h
    have hfl0 : 0 ≤ ⌊d⌋ := Int.floor_nonneg.mpr hd0
    have hcQ : (((ctrunc d).toNat : ℕ) : ℚ) = ((⌊d⌋ : ℤ) : ℚ) := by
      rw [ctrunc_eq_floor hd0]
      exact_mod_cast Int.toNat_of_nonneg hfl0
    have hf0 : (0:ℚ) ≤ d - ((⌊d⌋ : ℤ) : ℚ) := by
      have := Int.floor_le d; linarith
    have hf1 : d - ((⌊d⌋ : ℤ) : ℚ) < 1 := by
      have := Int.lt_floor_add_one d; linarith
    have key : waitRequestNanos d = (⌊d * 1000000000⌋).toNat := by
      unfold waitRequestNanos
      rw [hcQ]
      have harg0 : (0:ℚ) ≤ (d - ((⌊d⌋ : ℤ) : ℚ)) * 1000000000 :=
        mul_nonneg hf0 (by norm_num)
      have harg1 : (d - ((⌊d⌋ : ℤ) : ℚ)) * 1000000000 < 4294967296 := by
        have := mul_lt_mul_of_pos_right hf1 (show (0:ℚ) < 1000000000 by norm_num)
        linarith
      have hc := castUInt32_eq_floor harg0 harg1
      have hsplit : ⌊d * 1000000000⌋
          = ⌊d⌋ * 1000000000 + ⌊(d - ((⌊d⌋ : ℤ) : ℚ)) * 1000000000⌋ := by
        have heq : d * 1000000000
            = (d - ((⌊d⌋ : ℤ) : ℚ)) * 1000000000 + ((⌊d⌋ * 1000000000 : ℤ) : ℚ) := by
          push_cast
          ring
        rw [heq, Int.floor_add_int]
        ring
      have hfnn : 0 ≤ ⌊(d - ((⌊d⌋ : ℤ) : ℚ)) * 1000000000⌋ :=
        Int.floor_nonneg.mpr harg0
      rw [ctrunc_eq_floor hd0]
      omega
    have hnn : 0 ≤ ⌊d * 1000000000⌋ :=
      Int.floor_nonneg.mpr (mul_nonneg hd0 (by norm_num))
    have hreqQ : ((waitRequestNanos d : ℕ) : ℚ) = ((⌊d * 1000000000⌋ : ℤ) : ℚ) := by
      rw [key]
      exact_mod_cast Int.toNat_of_nonneg hnn
    refine ⟨?_, ?_, ?_⟩
    · simp [Wait, not_le.mpr h, nanosleepLoop_total]
    · rw [hreqQ]; exact Int.floor_le _
    · rw [hreqQ]
      have := Int.lt_floor_add_one (d * 1000000000)
      linarith

/-- Witness for claim C7: a negative delay sleeps zero nanoseconds, a positive
delay sleeps the full request across interruptions. -/
theorem wait_witness :
    Wait (-1) [5] = 0 ∧ Wait (3/2) [100, 200] = waitRequestNanos (3/2) :=
  ⟨(wait_sleeps_full_interval (-1) [5]).1 (by norm_num),
   ((wait_sleeps_full_interval (3/2) [100, 200]).2 (by norm_num)).1⟩

/-! ## Abort descriptors (`rtpabortdescriptors.cpp`) -/

/-- Error code from `rtperrors.h` (the header is not among the sources under
verification; the four codes are modelled as distinct negative integers,
which is all the claims rely on). -/
def ERR_RTP_ABORTDESC_ALREADYINIT : ℤ := -1

/-- Error code from `rtperrors.h`, see `ERR_RTP_ABORTDESC_ALREADYINIT`. -/
def ERR_RTP_ABORTDESC_CANTCREATEABORTDESCRIPTORS : ℤ := -2

/-- Error code from `rtperrors.h`, see `ERR_RTP_ABORTDESC_ALREADYINIT`. -/
def ERR_RTP_ABORTDESC_CANTCREATEPIPE : ℤ := -3

/-- Error code from `rtperrors.h`, see `ERR_RTP_ABORTDESC_ALREADYINIT`. -/
def ERR_RTP_ABORTDESC_NOTINIT : ℤ := -4

/-- The `RTPAbortDescriptors` object state: `m_descriptors[0]`,
`m_descriptors[1]` (`none` models `RTPSOCKERR`) and `m_init`. -/
structure AbortDesc where
  m_descriptors0 : Option ℕ
  m_descriptors1 : Option ℕ
  m_init : Bool
  deriving DecidableEq, Repr

/-- Outcomes of the eight syscalls performed by the winsock variant of
`RTPAbortDescriptors::Init`, in program order. -/
structure WinsockEnv where
  socket1Ok : Bool
  bind1Ok : Bool
  getsocknameOk : Bool
  socket2Ok : Bool
  bind2Ok : Bool
  listenOk : Bool
  connectOk : Bool
  acceptOk : Bool
  deriving DecidableEq, Repr

/-- `RTPCLOSE(h)` removes handle `h` from the list of open handles. -/
def RTPCLOSE (opened : List ℕ) (h : ℕ) : List ℕ := opened.erase h

/-- `RTPAbortDescriptors::Init`, winsock variant (rtpabortdescriptors.cpp,
lines 22-104), as a straight-line translation.  Syscall outcomes come from
the oracle `env`; the handles created by this call are numbered `0` (the
listen socket), `1` (`m_descriptors[0]`) and `2` (`m_descriptors[1]`), and
the third component of the result is the list of handles created by this
call that are still open at return, after the `RTPCLOSE` calls the taken
path performs. -/
def InitWinsock (st : AbortDesc) (env : WinsockEnv) : ℤ × AbortDesc × List ℕ :=
  if st.m_init then (ERR_RTP_ABORTDESC_ALREADYINIT, st, [])
  else if env.socket1Ok = false then
    (ERR_RTP_ABORTDESC_CANTCREATEABORTDESCRIPTORS, st, [])
  else if env.bind1Ok = false then
    (ERR_RTP_ABORTDESC_CANTCREATEABORTDESCRIPTORS, st, RTPCLOSE [0] 0)
  else if env.getsocknameOk = false then
    (ERR_RTP_ABORTDESC_CANTCREATEABORTDESCRIPTORS, st, RTPCLOSE [0] 0)
  else if env.socket2Ok = false then
    (ERR_RTP_ABORTDESC_CANTCREATEABORTDESCRIPTORS,
     { st with m_descriptors0 := none }, RTPCLOSE [0] 0)
  else if env.bind2Ok = false then
    (ERR_RTP_ABORTDESC_CANTCREATEABORTDESCRIPTORS,
     { st with m_descriptors0 := some 1 }, RTPCLOSE (RTPCLOSE [0, 1] 0) 1)
  else if env.listenOk = false then
    (ERR_RTP_ABORTDESC_CANTCREATEABORTDESCRIPTORS,
     { st with m_descriptors0 := some 1 }, RTPCLOSE (RTPCLOSE [0, 1] 0) 1)
  else if env.connectOk = false then
    (ERR_RTP_ABORTDESC_CANTCREATEABORTDESCRIPTORS,
     { st with m_descriptors0 := some 1 }, RTPCLOSE (RTPCLOSE [0, 1] 0) 1)
  else if env.acceptOk = false then
    (ERR_RTP_ABORTDESC_CANTCREATEABORTDESCRIPTORS,
     { st with m_descriptors0 := some 1, m_descriptors1 := none },
     RTPCLOSE (RTPCLOSE [0, 1] 0) 1)
  else
    (0, ⟨some 1, some 2, true⟩, RTPCLOSE [0, 1, 2] 0)

/-- Outcome of the single `pipe` syscall of the unix variant of
`RTPAbortDescriptors::Init`. -/
structure UnixEnv where
  pipeOk : Bool
  deriving DecidableEq, Repr

/-- `RTPAbortDescriptors::Init`, unix variant (rtpabortdescriptors.cpp, lines
141-151).  `pipe` either creates both descriptors (numbered `0` and `1`) or
creates nothing and fails. -/
def InitUnix (st : AbortDesc) (env : UnixEnv) : ℤ × AbortDesc × List ℕ :=
  if st.m_init then (ERR_RTP_ABORTDESC_ALREADYINIT, st, [])
  else if env.pipeOk = false then (ERR_RTP_ABORTDESC_CANTCREATEPIPE, st, [])
  else (0, ⟨some 0, some 1, true⟩, [0, 1])

/-! ### Claim C4: `Init` rolls back on failure -/

theorem initWinsock_cases (d0 d1 : Option ℕ) (env : WinsockEnv) :
    InitWinsock ⟨d0, d1, false⟩ env = (0, ⟨some 1, some 2, true⟩, [1, 2]) ∨
    ((InitWinsock ⟨d0, d1, false⟩ env).1
        = ERR_RTP_ABORTDESC_CANTCREATEABORTDESCRIPTORS ∧
      (InitWinsock ⟨d0, d1, false⟩ env).2.2 = [] ∧
      (InitWinsock ⟨d0, d1, false⟩ env).2.1.m_init = false) := by
  obtain ⟨s1, b1, g2, s2, b2, lo, co, ac⟩ := env
  cases s1 <;> cases b1 <;> cases g2 <;> cases s2 <;> cases b2 <;> cases lo <;>
    cases co <;> cases ac <;> simp [InitWinsock, RTPCLOSE]

theorem initUnix_cases (d0 d1 : Option ℕ) (uenv : UnixEnv) :
    InitUnix ⟨d0, d1, false⟩ uenv = (0, ⟨some 0, some 1, true⟩, [0, 1]) ∨
    ((InitUnix ⟨d0, d1, false⟩ uenv).1 = ERR_RTP_ABORTDESC_CANTCREATEPIPE ∧
      (InitUnix ⟨d0, d1, false⟩ uenv).2.2 = [] ∧
      (InitUnix ⟨d0, d1, false⟩ uenv).2.1.m_init = false) := by
  obtain ⟨p⟩ := uenv
  cases p <;> simp [InitUnix]

/-- Claim C4: if `RTPAbortDescriptors::Init` fails at any step, it returns the
distinct creation-failure error code, every OS handle the call had opened is
closed again before returning (the listen socket and any connected socket in
the socket-pair variant), and the object stays uninitialized; on success
exactly the two pair descriptors remain open. -/
theorem init_rolls_back_on_failure (st : AbortDesc) (env : WinsockEnv)
    (uenv : UnixEnv) (h : st.m_init = false) :
    ((InitWinsock st env).1 = 0 →
        (InitWinsock st env).2.1.m_init = true ∧
        (InitWinsock st env).2.2 = [1, 2] ∧
        (InitWinsock st env).2.1.m_descriptors0 = some 1 ∧
        (InitWinsock st env).2.1.m_descriptors1 = some 2) ∧
    ((InitWinsock st env).1 ≠ 0 →
        (InitWinsock st env).1 = ERR_RTP_ABORTDESC_CANTCREATEABORTDESCRIPTORS ∧
        (InitWinsock st env).2.2 = [] ∧
        (InitWinsock st env).2.1.m_init = false) ∧
    ((InitUnix st uenv).1 = 0 →
        (InitUnix st uenv).2.1.m_init = true ∧ (InitUnix st uenv).2.2 = [0, 1]) ∧
    ((InitUnix st uenv).1 ≠ 0 →
        (InitUnix st uenv).1 = ERR_RTP_ABORTDESC_CANTCREATEPIPE ∧
        (InitUnix st uenv).2.2 = [] ∧
        (InitUnix st uenv).2.1.m_init = false) := by
  obtain ⟨d0, d1, mi⟩ := st
  obtain rfl : mi = false := h
  have hwin := initWinsock_cases d0 d1 env
  have hunix := initUnix_cases d0 d1 uenv
  refine ⟨?_, ?_, ?_, ?_⟩
  · intro h0
    rcases hwin with hw | hw
    · rw [hw]
      exact ⟨rfl, rfl, rfl, rfl⟩
    · exact absurd (hw.1.symm.trans h0) (by decide)
  · intro h0
    rcases hwin with hw | hw
    · rw [hw] at h0
      exact absurd rfl h0
    · exact hw
  · intro h0
    rcases hunix with hu | hu
    · rw [hu]
      exact ⟨rfl, rfl⟩
    · exact absurd (hu.1.symm.trans h0) (by decide)
  · intro h0
    rcases hunix with hu | hu
    · rw [hu] at h0
      exact absurd rfl h0
    · exact hu

/-- Witness for claim C4: the all-successful winsock run leaves exactly the
two pair descriptors open; a failed `pipe` run leaves nothing open. -/
theorem init_rolls_back_witness :
    (InitWinsock ⟨none, none, false⟩ ⟨true, true, true, true, true, true, true, true⟩).2.2
      = [1, 2] ∧
    (InitUnix ⟨none, none, false⟩ ⟨false⟩).1 = ERR_RTP_ABORTDESC_CANTCREATEPIPE := by
  have h := init_rolls_back_on_failure ⟨none, none, false⟩
    ⟨true, true, true, true, true, true, true, true⟩ ⟨false⟩ rfl
  exact ⟨(h.1 (by decide)).2.1, (h.2.2.2 (by decide)).1⟩

/-! ### Claim C5: `ClearAbortSignal` -/

/-- The drain loop of `RTPAbortDescriptors::ClearAbortSignal`
(rtpabortdescriptors.cpp, lines 196-223).  The channel state is the number
`count` of buffered signalling bytes; the zero-timeout `RTPSelect` reports
the descriptor ready exactly when `count > 0`, and its return status for each
successive iteration is supplied by the oracle list `sel` (`0` once the list
is exhausted); a negative status is returned unchanged, as in the source.
`ReadSignallingByte` (lines 179-191) consumes one buffered byte and succeeds.
Returns (status, remaining bytes, bytes read). -/
def clearLoop : ℕ → List ℤ → ℤ × ℕ × ℕ
  | count, sel =>
    if sel.headD 0 < 0 then (sel.headD 0, count, 0)
    else
      match count with
      | 0 => (0, 0, 0)
      | c + 1 =>
        let r := clearLoop c sel.tail
        (r.1, r.2.1, r.2.2 + 1)

/-- `RTPAbortDescriptors::ClearAbortSignal` (rtpabortdescriptors.cpp, lines
196-223): fails with `ERR_RTP_ABORTDESC_NOTINIT` when the pair is not
initialized, otherwise runs the drain loop. -/
def ClearAbortSignal (initFlag : Bool) (sel : List ℤ) (count : ℕ) : ℤ × ℕ × ℕ :=
  if ¬ initFlag then (ERR_RTP_ABORTDESC_NOTINIT, count, 0)
  else clearLoop count sel

theorem clearLoop_nonneg (count : ℕ) (sel : List ℤ) (hsel : ∀ s ∈ sel, 0 ≤ s) :
    clearLoop count sel = (0, 0, count) := by
  induction count generalizing sel with
  | zero =>
    cases sel with
    | nil => simp [clearLoop]
    | cons a l =>
      have ha : 0 ≤ a := hsel a (by simp)
      simp [clearLoop, List.headD, not_lt.mpr ha]
  | succ c ih =>
    cases sel with
    | nil =>
      simp [clearLoop, ih [] (by simp)]
    | cons a l =>
      have ha : 0 ≤ a := hsel a (by simp)
      have htail : ∀ s ∈ l, 0 ≤ s := fun s hs => hsel s (by simp [hs])
      simp [clearLoop, List.headD, not_lt.mpr ha, ih l htail]

theorem clearLoop_propagates (pre : List ℤ) (rest : List ℤ) (v : ℤ) (count : ℕ)
    (hpre : ∀ s ∈ pre, 0 ≤ s) (hv : v < 0) (hlen : pre.length ≤ count) :
    clearLoop count (pre ++ v :: rest) = (v, count - pre.length, pre.length) := by
  induction pre generalizing count with
  | nil =>
    simp only [List.nil_append, List.length_nil, Nat.sub_zero]
    have hhead : ((v :: rest).headD 0) = v := rfl
    cases count with
    | zero => simp [clearLoop, hhead, hv]
    | succ c => simp [clearLoop, hhead, hv]
  | cons a pre' ih =>
    have ha : 0 ≤ a := hpre a (by simp)
    obtain ⟨c, rfl⟩ : ∃ c, count = c + 1 := by
      cases count with
      | zero => simp at hlen
      | succ c => exact ⟨c, rfl⟩
    have hhead : (((a :: pre') ++ v :: rest).headD 0) = a := rfl
    have hpre' : ∀ s ∈ pre', 0 ≤ s := fun s hs => hpre s (by simp [hs])
    have hlen' : pre'.length ≤ c := by simpa using hlen
    have htail : ((a :: pre') ++ v :: rest).tail = pre' ++ v :: rest := rfl
    simp only [clearLoop, hhead, not_lt.mpr ha, if_false, htail, ih c hpre' hlen',
      List.length_cons]
    simp

/-- Claim C5: on an initialized channel with `count` buffered bytes and
well-behaved zero-timeout selects, the drain returns status `0` having read
exactly one byte per ready iteration and leaving the channel empty; running
it again immediately afterwards reads nothing and returns `0`; and a
negative select status occurring at any iteration is propagated unchanged. -/
theorem clearAbortSignal_drains (count : ℕ) (sel : List ℤ)
    (hsel : ∀ s ∈ sel, 0 ≤ s) :
    ClearAbortSignal true sel count = (0, 0, count) ∧
    ClearAbortSignal true sel 0 = (0, 0, 0) ∧
    (∀ (pre rest : List ℤ) (v : ℤ), (∀ s ∈ pre, 0 ≤ s) → v < 0 →
      pre.length ≤ count →
      ClearAbortSignal true (pre ++ v :: rest) count
        = (v, count - pre.length, pre.length)) := by
  refine ⟨?_, ?_, ?_⟩
  · simp [ClearAbortSignal, clearLoop_nonneg count sel hsel]
  · simp [ClearAbortSignal, clearLoop_nonneg 0 sel hsel]
  · intro pre rest v hpre hv hlen
    simp [ClearAbortSignal, clearLoop_propagates pre rest v count hpre hv hlen]

/-- Witness for claim C5 with two buffered bytes: a clean drain, the
idempotent re-run, and a propagated failing select. -/
theorem clearAbortSignal_witness :
    ClearAbortSignal true [1, 1, 1] 2 = (0, 0, 2) ∧
    ClearAbortSignal true [1, 1, 1] 0 = (0, 0, 0) ∧
    ClearAbortSignal true ([1] ++ (-3) :: [1]) 2
      = (-3, 2 - ([1] : List ℤ).length, ([1] : List ℤ).length) := by
  obtain ⟨a, b, c⟩ := clearAbortSignal_drains 2 [1, 1, 1] (by decide)
  exact ⟨a, b, c [1] [1] (-3) (by decide) (by decide) (by decide)⟩

/-! ## RFC 4571 stream reassembly (`RTPTCPTransmitter::SocketData`) -/

/-- Protocol errors of the reassembler (spec §4.4 and §7). -/
inductive PacketError where
  | connectionClosed
  | oversizedFrame
  deriving DecidableEq, Repr

/-- The per-socket reassembly state `RTPTCPTransmitter::SocketData`
(rtptcptransmitter.h, lines 128-143): `lengthBuffer` holds the staged length
bytes (`m_lengthBuffer` up to `m_lengthBufferOffset = lengthBuffer.length ≤ 2`),
`dataLength` is the decoded frame length (`m_dataLength`), and `dataBuffer`
holds the payload bytes received so far
(`m_pDataBuffer` up to `m_dataBufferOffset = dataBuffer.length`). -/
structure SocketData where
  lengthBuffer : List ℕ
  dataLength : ℕ
  dataBuffer : List ℕ
  deriving DecidableEq, Repr

/-- `SocketData::Reset`: the state a fresh or just-emitted reassembler is in. -/
def SocketData.initial : SocketData := ⟨[], 0, []⟩

/-- Modelled from the spec: the implementation of
`RTPTCPTransmitter::SocketData::ProcessAvailableBytes` is not among the
sources (only its declaration, rtptcptransmitter.h lines 128-143, is); this
follows spec §4.4: while bytes remain, stage up to two length bytes, decode
the big-endian length `(lenBuf[0] << 8) | lenBuf[1]` when the second arrives
(`oversizedFrame` if it exceeds `maxPackSize`, a zero length completes at
once with an empty payload), then collect payload bytes until
`dataOff = dataLen`; each completed frame is harvested and the state `Reset`,
as the caller's poll loop does (spec §4.5 step 3), and processing continues
with the remaining bytes.  Returns the payloads completed while consuming
`chunk`, in order, together with the final state. -/
def ProcessAvailableBytes (maxPackSize : ℕ) :
    SocketData → List ℕ → Except PacketError (List (List ℕ) × SocketData)
  | s, [] => .ok ([], s)
  | s, b :: rest =>
    if s.lengthBuffer.length < 2 then
      let lb := s.lengthBuffer ++ [b]
      if lb.length = 2 then
        let len := 256 * lb.headD 0 + lb.getD 1 0
        if maxPackSize < len then .error .oversizedFrame
        else if len = 0 then
          match ProcessAvailableBytes maxPackSize SocketData.initial rest with
          | .error e => .error e
          | .ok (ps, s1) => .ok ([] :: ps, s1)
        else ProcessAvailableBytes maxPackSize ⟨lb, len, []⟩ rest
      else ProcessAvailableBytes maxPackSize ⟨lb, 0, []⟩ rest
    else
      let db := s.dataBuffer ++ [b]
      if db.length = s.dataLength then
        match ProcessAvailableBytes maxPackSize SocketData.initial rest with
        | .error e => .error e
        | .ok (ps, s1) => .ok (db :: ps, s1)
      else ProcessAvailableBytes maxPackSize ⟨s.lengthBuffer, s.dataLength, db⟩ rest

/-- The caller's receive loop (`RTPTCPTransmitter::PollSocket`): feed each
successive read through `ProcessAvailableBytes`, collecting all completed
payloads in order. -/
def feedChunks (maxPackSize : ℕ) :
    SocketData → List (List ℕ) → Except PacketError (List (List ℕ) × SocketData)
  | s, [] => .ok ([], s)
  | s, c :: cs =>
    match ProcessAvailableBytes maxPackSize s c with
    | .error e => .error e
    | .ok (ps, s1) =>
      match feedChunks maxPackSize s1 cs with
      | .error e => .error e
      | .ok (qs, s2) => .ok (ps ++ qs, s2)

/-- The reference parse of a whole byte stream as concatenated RFC 4571
frames `u16 length (big-endian) || payload`: the sequence of complete frames
(a trailing incomplete frame is ignored), `oversizedFrame` as soon as a
decoded length exceeds `maxPackSize`. -/
def parseFrames (maxPackSize : ℕ) : List ℕ → Except PacketError (List (List ℕ))
  | [] => .ok []
  | [_] => .ok []
  | b0 :: b1 :: rest =>
    if maxPackSize < 256 * b0 + b1 then .error .oversizedFrame
    else if rest.length < 256 * b0 + b1 then .ok []
    else
      match parseFrames maxPackSize (rest.drop (256 * b0 + b1)) with
      | .error e => .error e
      | .ok ps => .ok (rest.take (256 * b0 + b1) :: ps)
  termination_by l => l.length
  decreasing_by
    simp only [List.length_drop, List.length_cons]
    omega

/-- Continuation: run the reassembler over a further chunk after a first
result, concatenating the emitted payload sequences. -/
def afterChunk (maxPackSize : ℕ) (c2 : List ℕ)
    (res : Except PacketError (List (List ℕ) × SocketData)) :
    Except PacketError (List (List ℕ) × SocketData) :=
  match res with
  | .error e => .error e
  | .ok (ps, s1) =>
    match ProcessAvailableBytes maxPackSize s1 c2 with
    | .error e => .error e
    | .ok (qs, s2) => .ok (ps ++ qs, s2)

theorem afterChunk_cons (m : ℕ) (c2 : List ℕ) (x : List ℕ)
    (r : Except PacketError (List (List ℕ) × SocketData)) :
    afterChunk m c2
      (match r with
        | .error e => .error e
        | .ok (ps, s1) => .ok (x :: ps, s1))
    = match afterChunk m c2 r with
      | .error e => .error e
      | .ok (qs, s2) => .ok (x :: qs, s2) := by
  cases r with
  | error e => rfl
  | ok pr =>
    obtain ⟨ps, s1⟩ := pr
    show afterChunk m c2 (.ok (x :: ps, s1)) = _
    cases h : ProcessAvailableBytes m s1 c2 with
    | error e => simp [afterChunk, h]
    | ok qr =>
      obtain ⟨qs, s2⟩ := qr
      simp [afterChunk, h]

theorem processAvailableBytes_append (maxPackSize : ℕ) (c1 c2 : List ℕ)
    (s : SocketData) :
    ProcessAvailableBytes maxPackSize s (c1 ++ c2)
      = afterChunk maxPackSize c2 (ProcessAvailableBytes maxPackSize s c1) := by
  induction c1 generalizing s with
  | nil =>
    simp only [List.nil_append]
    show _ = afterChunk maxPackSize c2 (.ok ([], s))
    cases h : ProcessAvailableBytes maxPackSize s c2 with
    | error e => simp [afterChunk, h]
    | ok pr =>
      obtain ⟨qs, s2⟩ := pr
      simp [afterChunk, h]
  | cons b rest ih =>
    simp only [List.cons_append, ProcessAvailableBytes, List.append_eq]
    by_cases h1 : s.lengthBuffer.length < 2
    · simp only [if_pos h1]
      by_cases h2 : (s.lengthBuffer ++ [b]).length = 2
      · simp only [if_pos h2]
        by_cases h3 : maxPackSize <
            256 * (s.lengthBuffer ++ [b]).headD 0 + (s.lengthBuffer ++ [b]).getD 1 0
        · simp only [if_pos h3]
          rfl
        · simp only [if_neg h3]
          by_cases h4 : 256 * (s.lengthBuffer ++ [b]).headD 0
              + (s.lengthBuffer ++ [b]).getD 1 0 = 0
          · simp only [if_pos h4]
            rw [ih SocketData.initial, afterChunk_cons]
          · simp only [if_neg h4]
            exact ih _
      · simp only [if_neg h2]
        exact ih _
    · simp only [if_neg h1]
      by_cases h5 : (s.dataBuffer ++ [b]).length = s.dataLength
      · simp only [if_pos h5]
        rw [ih SocketData.initial, afterChunk_cons]
      · simp only [if_neg h5]
        exact ih _

theorem processAvailableBytes_payload (m len : ℕ) (lb : List ℕ)
    (hlb : ¬ lb.length < 2) :
    ∀ (rest acc : List ℕ), acc.length < len →
    ProcessAvailableBytes m ⟨lb, len, acc⟩ rest
      = if rest.length < len - acc.length
        then .ok ([], ⟨lb, len, acc ++ rest⟩)
        else
          match ProcessAvailableBytes m SocketData.initial
              (rest.drop (len - acc.length)) with
          | .error e => .error e
          | .ok (ps, s1) => .ok ((acc ++ rest.take (len - acc.length)) :: ps, s1) := by
  intro rest
  induction rest with
  | nil =>
    intro acc hacc
    have hpos : 0 < len - acc.length := by omega
    simp [ProcessAvailableBytes, hpos]
  | cons b r' ih =>
    intro acc hacc
    simp only [ProcessAvailableBytes, if_neg hlb]
    by_cases hdone : (acc ++ [b]).length = len
    · have h1 : len - acc.length = 1 := by
        simp at hdone; omega
      simp only [if_pos hdone, h1]
      have h2 : ¬ ((b :: r').length < 1) := by simp
      rw [if_neg h2]
      simp
    · have hlt : (acc ++ [b]).length < len := by
        simp at hdone ⊢; omega
      simp only [if_neg hdone]
      rw [ih (acc ++ [b]) hlt]
      have e1 : len - acc.length = (len - (acc ++ [b]).length) + 1 := by
        simp; omega
      rw [e1]
      have e2 : ((b :: r').length < (len - (acc ++ [b]).length) + 1)
          ↔ (r'.length < len - (acc ++ [b]).length) := by simp
      by_cases h3 : r'.length < len - (acc ++ [b]).length
      · rw [if_pos h3, if_pos (by simpa [e2] using h3)]
        simp
      · rw [if_neg h3, if_neg (by simp [e2]; omega)]
        simp only [List.drop_succ_cons, List.take_succ_cons]
        simp

theorem processAvailableBytes_start (m b0 b1 : ℕ) (rest : List ℕ) :
    ProcessAvailableBytes m SocketData.initial (b0 :: b1 :: rest)
      = if m < 256 * b0 + b1 then .error .oversizedFrame
        else if 256 * b0 + b1 = 0 then
          match ProcessAvailableBytes m SocketData.initial rest with
          | .error e => .error e
          | .ok (ps, s1) => .ok ([] :: ps, s1)
        else ProcessAvailableBytes m ⟨[b0, b1], 256 * b0 + b1, []⟩ rest := rfl

theorem processAvailableBytes_parse (m : ℕ) :
    ∀ (N : ℕ) (stream : List ℕ), stream.length ≤ N →
    ∀ ps, parseFrames m stream = .ok ps →
    ∃ s', ProcessAvailableBytes m SocketData.initial stream = .ok (ps, s') := by
  intro N
  induction N with
  | zero =>
    intro stream hlen ps hp
    have hnil : stream = [] := List.length_eq_zero.mp (by omega)
    subst hnil
    have hps : ps = [] := by
      have h0 : parseFrames m [] = .ok [] := by simp [parseFrames]
      rw [h0] at hp
      exact (Except.ok.injEq _ _).mp hp.symm
    subst hps
    exact ⟨SocketData.initial, rfl⟩
  | succ N ih =>
    intro stream hlen ps hp
    match stream with
    | [] =>
      have hps : ps = [] := by
        have h0 : parseFrames m [] = .ok [] := by simp [parseFrames]
        rw [h0] at hp
        exact (Except.ok.injEq _ _).mp hp.symm
      subst hps
      exact ⟨SocketData.initial, rfl⟩
    | [b] =>
      have hps : ps = [] := by
        have h0 : parseFrames m [b] = .ok [] := by simp [parseFrames]
        rw [h0] at hp
        exact (Except.ok.injEq _ _).mp hp.symm
      subst hps
      exact ⟨⟨[b], 0, []⟩, rfl⟩
    | b0 :: b1 :: rest =>
      rw [processAvailableBytes_start]
      rw [parseFrames] at hp
      by_cases h3 : m < 256 * b0 + b1
      · rw [if_pos h3] at hp
        exact absurd hp (by simp)
      · rw [if_neg h3] at hp
        rw [if_neg h3]
        by_cases h4 : 256 * b0 + b1 = 0
        · rw [if_pos h4]
          have h5 : ¬ (rest.length < 256 * b0 + b1) := by omega
          rw [if_neg h5] at hp
          rw [h4] at hp
          simp only [List.drop_zero, List.take_zero] at hp
          cases hq : parseFrames m rest with
          | error e => rw [hq] at hp; exact absurd hp (by simp)
          | ok qs =>
            rw [hq] at hp
            simp only [] at hp
            have hps : ps = [] :: qs := ((Except.ok.injEq _ _).mp hp).symm
            subst hps
            have hrlen : rest.length ≤ N := by
              simp at hlen; omega
            obtain ⟨s', hs⟩ := ih rest hrlen qs hq
            rw [hs]
            exact ⟨s', rfl⟩
        · rw [if_neg h4]
          have hpay := processAvailableBytes_payload m (256 * b0 + b1) [b0, b1]
            (by simp) rest [] (by simpa using Nat.pos_of_ne_zero h4)
          simp only [List.length_nil, Nat.sub_zero, List.nil_append] at hpay
          rw [hpay]
          by_cases h5 : rest.length < 256 * b0 + b1
          · rw [if_pos h5] at hp ⊢
            have hps : ps = [] := (Except.ok.injEq _ _).mp hp.symm
            subst hps
            exact ⟨⟨[b0, b1], 256 * b0 + b1, rest⟩, rfl⟩
          · rw [if_neg h5] at hp ⊢
            cases hq : parseFrames m (rest.drop (256 * b0 + b1)) with
            | error e => rw [hq] at hp; exact absurd hp (by simp)
            | ok qs =>
              rw [hq] at hp
              simp only [] at hp
              have hps : ps = rest.take (256 * b0 + b1) :: qs :=
                ((Except.ok.injEq _ _).mp hp).symm
              subst hps
              have hdlen : (rest.drop (256 * b0 + b1)).length ≤ N := by
                simp [List.length_drop] at hlen ⊢; omega
              obtain ⟨s', hs⟩ := ih (rest.drop (256 * b0 + b1)) hdlen qs hq
              rw [hs]
              exact ⟨s', rfl⟩

theorem feedChunks_flatten (m : ℕ) (chunks : List (List ℕ)) : ∀ s,
    feedChunks m s chunks = ProcessAvailableBytes m s chunks.flatten := by
  induction chunks with
  | nil => intro s; rfl
  | cons c cs ih =>
    intro s
    have hj : (c :: cs).flatten = c ++ cs.flatten := rfl
    rw [hj, processAvailableBytes_append]
    cases h : ProcessAvailableBytes m s c with
    | error e => simp [feedChunks, h, afterChunk]
    | ok pr =>
      obtain ⟨ps, s1⟩ := pr
      simp only [feedChunks, h, ih s1]
      cases h2 : ProcessAvailableBytes m s1 cs.flatten with
      | error e => simp [afterChunk, h2]
      | ok qr =>
        obtain ⟨qs, s2⟩ := qr
        simp [afterChunk, h2]

/-- Claim C1: for every byte stream, fed in chunks of arbitrary sizes through
`ProcessAvailableBytes` (driven by the caller's harvest-and-reset loop), the
sequence of completed payloads emitted equals the sequence of frames obtained
by parsing the concatenated stream as `u16 big-endian length || payload`
frames, provided no decoded length exceeds `maxPackSize` (which is exactly
when the reference parse succeeds). -/
theorem reassembler_matches_stream_parse (maxPackSize : ℕ)
    (chunks : List (List ℕ)) (ps : List (List ℕ))
    (h : parseFrames maxPackSize chunks.flatten = .ok ps) :
    ∃ s', feedChunks maxPackSize SocketData.initial chunks = .ok (ps, s') := by
  rw [feedChunks_flatten]
  exact processAvailableBytes_parse maxPackSize chunks.flatten.length
    chunks.flatten le_rfl ps h

/-- Witness for claim C1: the stream `00 05 "hello" 00 01 "A"` split into the
chunks `00 05 68 65 | 6C 6C 6F 00 | 01 41` yields the payloads `"hello"`,
`"A"`. -/
theorem reassembler_witness :
    parseFrames 100
        ([[0, 5, 104, 101], [108, 108, 111, 0], [1, 65]] : List (List ℕ)).flatten
      = .ok [[104, 101, 108, 108, 111], [65]] ∧
    ∃ s', feedChunks 100 SocketData.initial
        [[0, 5, 104, 101], [108, 108, 111, 0], [1, 65]]
      = .ok ([[104, 101, 108, 108, 111], [65]], s') :=
  ⟨by norm_num [parseFrames],
   reassembler_matches_stream_parse 100 _ _ (by norm_num [parseFrames])⟩

/-! ## Keyed hash container (`rtpkeyhashtable.h`)

The template `RTPKeyHashTable<Key,Element,GetIndex,hashsize>` combines
per-index hash bucket chains (`table[i]`, linked through
`hashprev`/`hashnext`) with one insertion-order list (`firsthashelem` …
`lasthashelem`, linked through `listprev`/`listnext`) over the same nodes,
plus a cursor `curhashelem`.  Since `AddElement` rejects duplicate keys, a
stored node is identified by its key: the embedding keeps the
insertion-order list as `order` (with the element payloads), each bucket
chain as the list of its keys in chain order (`AddElement` prepends), and
the cursor as the key of the current node.  The pointer relinking of
`DeleteCurrentElement` is the removal of that node from its bucket chain and
from the order list; `RTPNew` allocation is modelled as always
succeeding. -/

/-- Error code from `rtperrors.h` (header not among the sources; modelled as
distinct negative integers, see `ERR_RTP_ABORTDESC_ALREADYINIT`). -/
def ERR_RTP_KEYHASHTABLE_FUNCTIONRETURNEDINVALIDHASHINDEX : ℤ := -5

/-- Error code from `rtperrors.h`, modelled as above. -/
def ERR_RTP_KEYHASHTABLE_KEYALREADYEXISTS : ℤ := -6

/-- Error code from `rtperrors.h`, modelled as above. -/
def ERR_RTP_KEYHASHTABLE_KEYNOTFOUND : ℤ := -7

/-- Error code from `rtperrors.h`, modelled as above. -/
def ERR_RTP_KEYHASHTABLE_NOCURRENTELEMENT : ℤ := -8

/-- State of an `RTPKeyHashTable`: bucket chains (`table`), the
insertion-order list with payloads (`firsthashelem` … via `listnext`), and
the cursor `curhashelem` (identified by its key, `none` for null). -/
structure RTPKeyHashTable (Key Elem : Type) where
  buckets : List (List Key)
  order : List (Key × Elem)
  cur : Option Key
  deriving DecidableEq, Repr

/-- The constructor `RTPKeyHashTable::RTPKeyHashTable` (rtpkeyhashtable.h,
lines 65-77): all buckets null, empty list. -/
def mkTable (Key Elem : Type) (hashsize : ℕ) : RTPKeyHashTable Key Elem :=
  ⟨List.replicate hashsize [], [], none⟩

variable {Key Elem : Type} [DecidableEq Key]

/-- `curhashelem->listnext`, expressed on the order list: the key following
`k`. -/
def nextKeyIn (order : List (Key × Elem)) (k : Key) : Option Key :=
  match order with
  | [] => none
  | (k0, _) :: rest => if k0 = k then rest.head?.map Prod.fst else nextKeyIn rest k

/-- `RTPKeyHashTable::AddElement` (rtpkeyhashtable.h, lines 215-264): invalid
hash index and duplicate key (found by walking the bucket chain) are
rejected; otherwise the new node is prepended to its bucket chain and
appended to the insertion-order list via `lasthashelem`. -/
def AddElement (getIndex : Key → ℕ) (t : RTPKeyHashTable Key Elem)
    (k : Key) (e : Elem) : ℤ × RTPKeyHashTable Key Elem :=
  let index := getIndex k
  if t.buckets.length ≤ index then
    (ERR_RTP_KEYHASHTABLE_FUNCTIONRETURNEDINVALIDHASHINDEX, t)
  else if k ∈ t.buckets.getD index [] then
    (ERR_RTP_KEYHASHTABLE_KEYALREADYEXISTS, t)
  else
    (0, ⟨t.buckets.set index (k :: t.buckets.getD index []),
         t.order ++ [(k, e)], t.cur⟩)

/-- `RTPKeyHashTable::DeleteCurrentElement` (rtpkeyhashtable.h, lines
79-133): unlink the current node from its bucket chain (the node's stored
`hashindex` is `getIndex` of its key) and from the order list, and move the
cursor to the next node in the list (`curhashelem = tmp2`). -/
def DeleteCurrentElement (getIndex : Key → ℕ) (t : RTPKeyHashTable Key Elem) :
    ℤ × RTPKeyHashTable Key Elem :=
  match t.cur with
  | none => (ERR_RTP_KEYHASHTABLE_NOCURRENTELEMENT, t)
  | some k =>
    let index := getIndex k
    (0, ⟨t.buckets.set index ((t.buckets.getD index []).erase k),
         t.order.eraseP (fun p => decide (p.1 = k)),
         nextKeyIn t.order k⟩)

/-- `RTPKeyHashTable::GotoElement` (rtpkeyhashtable.h, lines 135-157): on an
invalid index the cursor is untouched; otherwise the cursor walks the bucket
chain and ends on the matching node, or null with `KEYNOTFOUND`. -/
def GotoElement (getIndex : Key → ℕ) (t : RTPKeyHashTable Key Elem) (k : Key) :
    ℤ × RTPKeyHashTable Key Elem :=
  let index := getIndex k
  if t.buckets.length ≤ index then
    (ERR_RTP_KEYHASHTABLE_FUNCTIONRETURNEDINVALIDHASHINDEX, t)
  else if k ∈ t.buckets.getD index [] then (0, { t with cur := some k })
  else (ERR_RTP_KEYHASHTABLE_KEYNOTFOUND, { t with cur := none })

/-- `RTPKeyHashTable::DeleteElement` (rtpkeyhashtable.h, lines 266-275):
`GotoElement` followed by `DeleteCurrentElement` unless the lookup failed. -/
def DeleteElement (getIndex : Key → ℕ) (t : RTPKeyHashTable Key Elem)
    (k : Key) : ℤ × RTPKeyHashTable Key Elem :=
  let r := GotoElement getIndex t k
  if r.1 < 0 then r
  else DeleteCurrentElement getIndex r.2

/-- `RTPKeyHashTable::GotoFirstElement` (rtpkeyhashtable.h, line 23). -/
def GotoFirstElement (t : RTPKeyHashTable Key Elem) : RTPKeyHashTable Key Elem :=
  { t with cur := t.order.head?.map Prod.fst }

/-- `RTPKeyHashTable::GotoNextElement` (rtpkeyhashtable.h, lines 182-187). -/
def GotoNextElement (t : RTPKeyHashTable Key Elem) : RTPKeyHashTable Key Elem :=
  match t.cur with
  | none => t
  | some k => { t with cur := nextKeyIn t.order k }

/-- The canonical iteration: while `HasCurrentElement`, read
`GetCurrentKey`/`GetCurrentElement` (the payload of the node the cursor is
on) and advance with `GotoNextElement`.  Fuel bounds the walk. -/
def traverseTable : ℕ → RTPKeyHashTable Key Elem → List (Key × Elem)
  | 0, _ => []
  | fuel + 1, t =>
    match t.cur with
    | none => []
    | some k =>
      match t.order.find? (fun p => decide (p.1 = k)) with
      | none => []
      | some p => p :: traverseTable fuel (GotoNextElement t)

/-- `GotoFirstElement` followed by the `GotoNextElement` iteration. -/
def traverse (t : RTPKeyHashTable Key Elem) : List (Key × Elem) :=
  traverseTable t.order.length (GotoFirstElement t)

/-- Mutual consistency of the bucket chains and the insertion-order list:
bucket entries carry their hash index, buckets and order list index the same
key set, no duplicates anywhere, and the cursor (when set) points at a
stored node. -/
def WF (getIndex : Key → ℕ) (t : RTPKeyHashTable Key Elem) : Prop :=
  (∀ i < t.buckets.length, ∀ k ∈ t.buckets.getD i [], getIndex k = i) ∧
  (∀ k ∈ t.order.map Prod.fst, k ∈ t.buckets.getD (getIndex k) []) ∧
  (∀ i < t.buckets.length, ∀ k ∈ t.buckets.getD i [], k ∈ t.order.map Prod.fst) ∧
  (t.order.map Prod.fst).Nodup ∧
  (∀ i < t.buckets.length, (t.buckets.getD i []).Nodup) ∧
  (match t.cur with
   | none => True
   | some k => k ∈ t.order.map Prod.fst)

/-- The operations claim C8 quantifies over. -/
inductive TableOp (Key Elem : Type) where
  | add (k : Key) (e : Elem)
  | deleteKey (k : Key)
  | deleteCur
  deriving DecidableEq, Repr

/-- Run a sequence of container operations. -/
def runOps (getIndex : Key → ℕ) :
    RTPKeyHashTable Key Elem → List (TableOp Key Elem) → RTPKeyHashTable Key Elem
  | t, [] => t
  | t, op :: ops =>
    runOps getIndex
      (match op with
        | .add k e => (AddElement getIndex t k e).2
        | .deleteKey k => (DeleteElement getIndex t k).2
        | .deleteCur => (DeleteCurrentElement getIndex t).2)
      ops

/-- The spec-side container (spec §9): an ordered mapping with stable
insertion-order traversal and a cursor, no buckets. -/
structure AbsTable (Key Elem : Type) where
  order : List (Key × Elem)
  cur : Option Key
  deriving DecidableEq, Repr

/-- Spec-side insert: append unless the key is present. -/
def absAdd (a : AbsTable Key Elem) (k : Key) (e : Elem) : AbsTable Key Elem :=
  if k ∈ a.order.map Prod.fst then a
  else { a with order := a.order ++ [(k, e)] }

/-- Spec-side delete-at-cursor: remove the current entry, cursor moves to its
successor. -/
def absDeleteCur (a : AbsTable Key Elem) : AbsTable Key Elem :=
  match a.cur with
  | none => a
  | some k => ⟨a.order.eraseP (fun p => decide (p.1 = k)), nextKeyIn a.order k⟩

/-- Spec-side delete-by-key: remove the entry and leave the cursor on its
successor; an absent key leaves the contents unchanged with the cursor
cleared (as the failed `GotoElement` search does). -/
def absDeleteKey (a : AbsTable Key Elem) (k : Key) : AbsTable Key Elem :=
  if k ∈ a.order.map Prod.fst then
    ⟨a.order.eraseP (fun p => decide (p.1 = k)), nextKeyIn a.order k⟩
  else { a with cur := none }

/-- Run a sequence of operations on the spec-side container. -/
def runAbs : AbsTable Key Elem → List (TableOp Key Elem) → AbsTable Key Elem
  | a, [] => a
  | a, op :: ops =>
    runAbs
      (match op with
        | .add k e => absAdd a k e
        | .deleteKey k => absDeleteKey a k
        | .deleteCur => absDeleteCur a)
      ops

/-! ### List facts used by the container proofs -/

theorem getD_set_self {α : Type} (l : List α) (i : ℕ) (v d : α)
    (h : i < l.length) : (l.set i v).getD i d = v := by
  induction l generalizing i with
  | nil => simp at h
  | cons a tl ih =>
    cases i with
    | zero => rfl
    | succ j => exact ih j (by simpa using h)

theorem getD_set_ne {α : Type} (l : List α) (i j : ℕ) (v d : α) (h : i ≠ j) :
    (l.set i v).getD j d = l.getD j d := by
  induction l generalizing i j with
  | nil => rfl
  | cons a tl ih =>
    cases i with
    | zero =>
      cases j with
      | zero => exact absurd rfl h
      | succ j2 => rfl
    | succ i2 =>
      cases j with
      | zero => rfl
      | succ j2 => exact ih i2 j2 (by omega)

theorem keys_eraseP (order : List (Key × Elem)) (k : Key) :
    (order.eraseP (fun p => decide (p.1 = k))).map Prod.fst
      = (order.map Prod.fst).erase k := by
  induction order with
  | nil => rfl
  | cons p rest ih =>
    obtain ⟨k0, e0⟩ := p
    by_cases h : k0 = k
    · simp [List.eraseP_cons, List.erase_cons, h]
    · simp [List.eraseP_cons, List.erase_cons, h, ih]

theorem mem_keys_split (order : List (Key × Elem)) (k : Key)
    (h : k ∈ order.map Prod.fst) :
    ∃ pre e suf, order = pre ++ (k, e) :: suf ∧ k ∉ pre.map Prod.fst := by
  induction order with
  | nil => simp at h
  | cons p rest ih =>
    obtain ⟨k0, e0⟩ := p
    by_cases hk : k0 = k
    · subst hk
      exact ⟨[], e0, rest, rfl, by simp⟩
    · simp only [List.map_cons, List.mem_cons] at h
      have h2 : k ∈ rest.map Prod.fst := by
        rcases h with h | h
        · exact absurd h.symm hk
        · exact h
      obtain ⟨pre, e, suf, heq, hpre⟩ := ih h2
      refine ⟨(k0, e0) :: pre, e, suf, by simp [heq], ?_⟩
      simp only [List.map_cons, List.mem_cons, not_or]
      exact ⟨fun hh => hk hh.symm, hpre⟩

theorem nextKeyIn_append (pre suf : List (Key × Elem)) (k : Key) (e : Elem)
    (h : k ∉ pre.map Prod.fst) :
    nextKeyIn (pre ++ (k, e) :: suf) k = suf.head?.map Prod.fst := by
  induction pre with
  | nil => simp [nextKeyIn]
  | cons p pre' ih =>
    obtain ⟨k0, e0⟩ := p
    simp only [List.map_cons, List.mem_cons, not_or] at h
    have hk0 : k0 ≠ k := fun hh => h.1 hh.symm
    simp only [List.cons_append, nextKeyIn, if_neg hk0]
    exact ih h.2

theorem find?_keys_first (pre suf : List (Key × Elem)) (k : Key) (e : Elem)
    (h : k ∉ pre.map Prod.fst) :
    (pre ++ (k, e) :: suf).find? (fun p => decide (p.1 = k)) = some (k, e) := by
  induction pre with
  | nil => simp [List.find?]
  | cons p pre' ih =>
    obtain ⟨k0, e0⟩ := p
    simp only [List.map_cons, List.mem_cons, not_or] at h
    have hk0 : k0 ≠ k := fun hh => h.1 hh.symm
    rw [List.cons_append, List.find?_cons_of_neg _ (by simpa using hk0)]
    exact ih h.2

theorem eraseP_split (pre suf : List (Key × Elem)) (k : Key) (e : Elem)
    (h : k ∉ pre.map Prod.fst) :
    (pre ++ (k, e) :: suf).eraseP (fun p => decide (p.1 = k)) = pre ++ suf := by
  induction pre with
  | nil => simp [List.eraseP_cons]
  | cons p pre' ih =>
    obtain ⟨k0, e0⟩ := p
    simp only [List.map_cons, List.mem_cons, not_or] at h
    have hk0 : k0 ≠ k := fun hh => h.1 hh.symm
    simp only [List.cons_append, List.eraseP_cons]
    rw [decide_eq_false hk0]
    simp only [Bool.cond_false]
    rw [ih h.2]

/-! ### Traversal -/

/-- The cursor walk expressed on the order list alone (proof device for
`traverseTable`). -/
def traverseFrom (order : List (Key × Elem)) : ℕ → Option Key → List (Key × Elem)
  | 0, _ => []
  | _, none => []
  | fuel + 1, some k =>
    match order.find? (fun p => decide (p.1 = k)) with
    | none => []
    | some p => p :: traverseFrom order fuel (nextKeyIn order k)

theorem traverseTable_eq_from (fuel : ℕ) : ∀ (t : RTPKeyHashTable Key Elem),
    traverseTable fuel t = traverseFrom t.order fuel t.cur := by
  induction fuel with
  | zero =>
    intro t
    cases hcur : t.cur <;> simp [traverseTable, traverseFrom, hcur]
  | succ f ih =>
    intro t
    cases hcur : t.cur with
    | none => simp [traverseTable, traverseFrom, hcur]
    | some k =>
      simp only [traverseTable, traverseFrom, hcur]
      cases hfind : t.order.find? (fun p => decide (p.1 = k)) with
      | none => rfl
      | some p =>
        rw [ih (GotoNextElement t)]
        have h1 : (GotoNextElement t).order = t.order := by
          simp [GotoNextElement, hcur]
        have h2 : (GotoNextElement t).cur = nextKeyIn t.order k := by
          simp [GotoNextElement, hcur]
        rw [h1, h2]

theorem traverseFrom_suffix (order : List (Key × Elem))
    (hnd : (order.map Prod.fst).Nodup) :
    ∀ (suf pre : List (Key × Elem)) (fuel : ℕ), order = pre ++ suf →
      suf.length ≤ fuel →
      traverseFrom order fuel (suf.head?.map Prod.fst) = suf := by
  intro suf
  induction suf with
  | nil =>
    intro pre fuel _ _
    cases fuel <;> rfl
  | cons p suf' ih =>
    obtain ⟨k, e⟩ := p
    intro pre fuel horder hf
    obtain ⟨f, rfl⟩ : ∃ f, fuel = f + 1 := ⟨fuel - 1, by simp at hf; omega⟩
    have hksplit : k ∉ pre.map Prod.fst := by
      have h2 : ((pre ++ (k, e) :: suf').map Prod.fst).Nodup := horder ▸ hnd
      simp only [List.map_append, List.map_cons] at h2
      have h3 := List.nodup_append.mp h2
      exact fun hmem => (h3.2.2 hmem) (List.mem_cons_self k _)
    have hfind : order.find? (fun p => decide (p.1 = k)) = some (k, e) := by
      rw [horder]; exact find?_keys_first pre suf' k e hksplit
    have hnext : nextKeyIn order k = suf'.head?.map Prod.fst := by
      rw [horder]; exact nextKeyIn_append pre suf' k e hksplit
    show traverseFrom order (f + 1) (some k) = (k, e) :: suf'
    simp only [traverseFrom, hfind, hnext]
    exact congrArg (List.cons (k, e))
      (ih (pre ++ [(k, e)]) f (by simp [horder]) (by simp at hf; omega))

theorem traverse_eq (t : RTPKeyHashTable Key Elem)
    (hnd : (t.order.map Prod.fst).Nodup) : traverse t = t.order := by
  rw [traverse, traverseTable_eq_from]
  have h1 : (GotoFirstElement t).order = t.order := rfl
  have h2 : (GotoFirstElement t).cur = t.order.head?.map Prod.fst := rfl
  rw [h1, h2]
  exact traverseFrom_suffix t.order hnd t.order [] t.order.length (by simp) le_rfl

/-! ### The refinement invariant and its preservation -/

/-- The refinement invariant tying the concrete table to the spec-side
ordered map: same insertion-order contents, same cursor, stable bucket
count, and the mutual bucket/order-list consistency `WF`. -/
def Inv (getIndex : Key → ℕ) (hashsize : ℕ)
    (t : RTPKeyHashTable Key Elem) (a : AbsTable Key Elem) : Prop :=
  t.order = a.order ∧ t.cur = a.cur ∧ t.buckets.length = hashsize ∧ WF getIndex t

theorem add_step (getIndex : Key → ℕ) (hashsize : ℕ)
    (hIdx : ∀ k, getIndex k < hashsize)
    (t : RTPKeyHashTable Key Elem) (a : AbsTable Key Elem)
    (h : Inv getIndex hashsize t a) (k : Key) (e : Elem) :
    Inv getIndex hashsize (AddElement getIndex t k e).2 (absAdd a k e) := by
  obtain ⟨ho, hc, hl, w1, w2, w3, w4, w5, w6⟩ := h
  have hblen : getIndex k < t.buckets.length := by rw [hl]; exact hIdx k
  have hnotle : ¬ (t.buckets.length ≤ getIndex k) := by omega
  by_cases hk : k ∈ t.order.map Prod.fst
  · have hb : k ∈ t.buckets.getD (getIndex k) [] := w2 k hk
    have habs : absAdd a k e = a := by
      rw [absAdd, if_pos (ho ▸ hk)]
    have hres : (AddElement getIndex t k e).2 = t := by
      rw [AddElement]
      simp only [if_neg hnotle, if_pos hb]
    rw [habs, hres]
    exact ⟨ho, hc, hl, w1, w2, w3, w4, w5, w6⟩
  · have hnb : k ∉ t.buckets.getD (getIndex k) [] :=
      fun hmem => hk (w3 (getIndex k) hblen k hmem)
    have hcon : (AddElement getIndex t k e).2
        = ⟨t.buckets.set (getIndex k) (k :: t.buckets.getD (getIndex k) []),
           t.order ++ [(k, e)], t.cur⟩ := by
      rw [AddElement]
      simp only [if_neg hnotle, if_neg hnb]
    have habs : absAdd a k e = { a with order := a.order ++ [(k, e)] } := by
      rw [absAdd, if_neg (ho ▸ hk)]
    rw [hcon, habs]
    have hkeys : (t.order ++ [(k, e)]).map Prod.fst
        = t.order.map Prod.fst ++ [k] := by simp
    refine ⟨by simp [ho], by simp [hc], by simp [hl], ?_, ?_, ?_, ?_, ?_, ?_⟩
    · intro i hi k' hk'
      simp only [List.length_set] at hi
      by_cases hie : i = getIndex k
      · rw [hie] at hk' hi ⊢
        rw [getD_set_self _ _ _ _ hblen] at hk'
        rcases List.mem_cons.mp hk' with h1 | h1
        · rw [h1]
        · exact w1 (getIndex k) hi k' h1
      · rw [getD_set_ne _ _ _ _ _ (fun hh => hie hh.symm)] at hk'
        exact w1 i hi k' hk'
    · intro k' hk'
      show k' ∈ (t.buckets.set (getIndex k)
          (k :: t.buckets.getD (getIndex k) [])).getD (getIndex k') []
      rw [hkeys] at hk'
      rcases List.mem_append.mp hk' with h1 | h1
      · by_cases hie : getIndex k' = getIndex k
        · rw [hie, getD_set_self _ _ _ _ hblen]
          exact List.mem_cons_of_mem _ (hie ▸ w2 k' h1)
        · rw [getD_set_ne _ _ _ _ _ (fun hh => hie hh.symm)]
          exact w2 k' h1
      · have h2 : k' = k := by simpa using h1
        subst h2
        rw [getD_set_self _ _ _ _ hblen]
        exact List.mem_cons_self _ _
    · intro i hi k' hk'
      simp only [List.length_set] at hi
      rw [hkeys]
      by_cases hie : i = getIndex k
      · rw [hie] at hk' hi
        rw [getD_set_self _ _ _ _ hblen] at hk'
        rcases List.mem_cons.mp hk' with h1 | h1
        · rw [h1]; exact List.mem_append.mpr (Or.inr (by simp))
        · exact List.mem_append.mpr (Or.inl (w3 (getIndex k) hi k' h1))
      · rw [getD_set_ne _ _ _ _ _ (fun hh => hie hh.symm)] at hk'
        exact List.mem_append.mpr (Or.inl (w3 i hi k' hk'))
    · rw [hkeys]
      simp [List.nodup_append, w4, hk]
    · intro i hi
      simp only [List.length_set] at hi
      by_cases hie : i = getIndex k
      · rw [hie, getD_set_self _ _ _ _ hblen]
        exact List.nodup_cons.mpr ⟨hnb, w5 _ hblen⟩
      · rw [getD_set_ne _ _ _ _ _ (fun hh => hie hh.symm)]
        exact w5 i hi
    · show (match t.cur with
        | none => True
        | some k0 => k0 ∈ (t.order ++ [(k, e)]).map Prod.fst)
      cases hcur : t.cur with
      | none => trivial
      | some k0 =>
        rw [hcur] at w6
        rw [hkeys]
        exact List.mem_append.mpr (Or.inl w6)

theorem delcur_step (getIndex : Key → ℕ) (hashsize : ℕ)
    (hIdx : ∀ k, getIndex k < hashsize)
    (t : RTPKeyHashTable Key Elem) (a : AbsTable Key Elem)
    (h : Inv getIndex hashsize t a) :
    Inv getIndex hashsize (DeleteCurrentElement getIndex t).2 (absDeleteCur a) := by
  obtain ⟨ho, hc, hl, w1, w2, w3, w4, w5, w6⟩ := h
  cases hcur : t.cur with
  | none =>
    have hac : a.cur = none := hc.symm.trans hcur
    have hres : (DeleteCurrentElement getIndex t).2 = t := by
      simp [DeleteCurrentElement, hcur]
    have habs : absDeleteCur a = a := by
      simp [absDeleteCur, hac]
    rw [hres, habs]
    exact ⟨ho, hc, hl, w1, w2, w3, w4, w5, w6⟩
  | some k =>
    have hac : a.cur = some k := hc.symm.trans hcur
    have hkmem : k ∈ t.order.map Prod.fst := by
      rw [hcur] at w6
      exact w6
    obtain ⟨pre, e, suf, hsplit, hkpre⟩ := mem_keys_split t.order k hkmem
    have hblen : getIndex k < t.buckets.length := by rw [hl]; exact hIdx k
    have horder2 : t.order.eraseP (fun p => decide (p.1 = k)) = pre ++ suf := by
      rw [hsplit]; exact eraseP_split pre suf k e hkpre
    have hkeys2 : (t.order.eraseP (fun p => decide (p.1 = k))).map Prod.fst
        = (t.order.map Prod.fst).erase k := keys_eraseP t.order k
    have hnext : nextKeyIn t.order k = suf.head?.map Prod.fst := by
      rw [hsplit]; exact nextKeyIn_append pre suf k e hkpre
    have hres : (DeleteCurrentElement getIndex t).2
        = ⟨t.buckets.set (getIndex k) ((t.buckets.getD (getIndex k) []).erase k),
           t.order.eraseP (fun p => decide (p.1 = k)), nextKeyIn t.order k⟩ := by
      simp [DeleteCurrentElement, hcur]
    have habs : absDeleteCur a
        = ⟨a.order.eraseP (fun p => decide (p.1 = k)), nextKeyIn a.order k⟩ := by
      simp [absDeleteCur, hac]
    rw [hres, habs]
    refine ⟨by simp [ho], by simp [ho], by simp [hl], ?_, ?_, ?_, ?_, ?_, ?_⟩
    · intro i hi k' hk'
      simp only [List.length_set] at hi
      by_cases hie : i = getIndex k
      · rw [hie] at hk' hi ⊢
        rw [getD_set_self _ _ _ _ hblen] at hk'
        exact w1 (getIndex k) hi k' (List.mem_of_mem_erase hk')
      · rw [getD_set_ne _ _ _ _ _ (fun hh => hie hh.symm)] at hk'
        exact w1 i hi k' hk'
    · intro k' hk'
      rw [hkeys2] at hk'
      obtain ⟨hne, hmem⟩ := (List.Nodup.mem_erase_iff w4).mp hk'
      have hb := w2 k' hmem
      show k' ∈ (t.buckets.set (getIndex k) _).getD (getIndex k') []
      by_cases hie : getIndex k' = getIndex k
      · rw [hie, getD_set_self _ _ _ _ hblen]
        exact (List.Nodup.mem_erase_iff (w5 _ hblen)).mpr ⟨hne, hie ▸ hb⟩
      · rw [getD_set_ne _ _ _ _ _ (fun hh => hie hh.symm)]
        exact hb
    · intro i hi k' hk'
      simp only [List.length_set] at hi
      rw [hkeys2]
      by_cases hie : i = getIndex k
      · rw [hie] at hk' hi
        rw [getD_set_self _ _ _ _ hblen] at hk'
        obtain ⟨hne, hmem⟩ := (List.Nodup.mem_erase_iff (w5 _ hblen)).mp hk'
        exact (List.Nodup.mem_erase_iff w4).mpr ⟨hne, w3 (getIndex k) hi k' hmem⟩
      · rw [getD_set_ne _ _ _ _ _ (fun hh => hie hh.symm)] at hk'
        have hmem := w3 i hi k' hk'
        have hne : k' ≠ k := fun hh =>
          hie ((w1 i hi k' hk').symm.trans (congrArg getIndex hh))
        exact (List.Nodup.mem_erase_iff w4).mpr ⟨hne, hmem⟩
    · rw [hkeys2]
      exact w4.erase k
    · intro i hi
      simp only [List.length_set] at hi
      by_cases hie : i = getIndex k
      · rw [hie, getD_set_self _ _ _ _ hblen]
        exact (w5 _ hblen).erase k
      · rw [getD_set_ne _ _ _ _ _ (fun hh => hie hh.symm)]
        exact w5 i hi
    · show (match nextKeyIn t.order k with
        | none => True
        | some k0 => k0 ∈ (t.order.eraseP (fun p => decide (p.1 = k))).map Prod.fst)
      rw [hnext]
      cases hsuf : suf with
      | nil => trivial
      | cons q suf2 =>
        obtain ⟨k1, e1⟩ := q
        show k1 ∈ (t.order.eraseP (fun p => decide (p.1 = k))).map Prod.fst
        rw [horder2, hsuf]
        simp

theorem delkey_step (getIndex : Key → ℕ) (hashsize : ℕ)
    (hIdx : ∀ k, getIndex k < hashsize)
    (t : RTPKeyHashTable Key Elem) (a : AbsTable Key Elem)
    (h : Inv getIndex hashsize t a) (k : Key) :
    Inv getIndex hashsize (DeleteElement getIndex t k).2 (absDeleteKey a k) := by
  obtain ⟨ho, hc, hl, w1, w2, w3, w4, w5, w6⟩ := h
  have hblen : getIndex k < t.buckets.length := by rw [hl]; exact hIdx k
  have hnotle : ¬ (t.buckets.length ≤ getIndex k) := by omega
  by_cases hk : k ∈ t.order.map Prod.fst
  · have hb : k ∈ t.buckets.getD (getIndex k) [] := w2 k hk
    have hgoto : GotoElement getIndex t k = (0, { t with cur := some k }) := by
      rw [GotoElement]
      simp only [if_neg hnotle, if_pos hb]
    have hres : DeleteElement getIndex t k
        = DeleteCurrentElement getIndex { t with cur := some k } := by
      rw [DeleteElement, hgoto]
      norm_num
    have hmid : Inv getIndex hashsize { t with cur := some k }
        ⟨a.order, some k⟩ := by
      refine ⟨ho, rfl, hl, w1, w2, w3, w4, w5, ?_⟩
      exact hk
    have habs : absDeleteKey a k = absDeleteCur ⟨a.order, some k⟩ := by
      rw [absDeleteKey, if_pos (ho ▸ hk)]
      rfl
    rw [hres, habs]
    exact delcur_step getIndex hashsize hIdx _ _ hmid
  · have hnb : k ∉ t.buckets.getD (getIndex k) [] :=
      fun hmem => hk (w3 _ hblen k hmem)
    have hgoto : GotoElement getIndex t k
        = (ERR_RTP_KEYHASHTABLE_KEYNOTFOUND, { t with cur := none }) := by
      rw [GotoElement]
      simp only [if_neg hnotle, if_neg hnb]
    have hres : (DeleteElement getIndex t k).2 = { t with cur := none } := by
      rw [DeleteElement, hgoto]
      norm_num [ERR_RTP_KEYHASHTABLE_KEYNOTFOUND]
    have habs : absDeleteKey a k = { a with cur := none } := by
      rw [absDeleteKey, if_neg (ho ▸ hk)]
    rw [hres, habs]
    exact ⟨ho, rfl, hl, w1, w2, w3, w4, w5, trivial⟩

theorem getD_replicate_nil {α : Type} (hs i : ℕ) :
    (List.replicate hs ([] : List α)).getD i [] = [] := by
  induction hs generalizing i with
  | zero => cases i <;> rfl
  | succ n ih =>
    cases i with
    | zero => rfl
    | succ j => exact ih j

theorem inv_mkTable {Key Elem : Type} (getIndex : Key → ℕ) (hashsize : ℕ) :
    Inv getIndex hashsize (mkTable Key Elem hashsize)
      (⟨[], none⟩ : AbsTable Key Elem) := by
  refine ⟨rfl, rfl, by simp [mkTable], ?_, ?_, ?_, ?_, ?_, ?_⟩
  · intro i hi k hk
    rw [show (mkTable Key Elem hashsize).buckets
        = List.replicate hashsize [] from rfl, getD_replicate_nil] at hk
    exact absurd hk (List.not_mem_nil k)
  · intro k hk
    exact absurd hk (List.not_mem_nil k)
  · intro i hi k hk
    rw [show (mkTable Key Elem hashsize).buckets
        = List.replicate hashsize [] from rfl, getD_replicate_nil] at hk
    exact absurd hk (List.not_mem_nil k)
  · exact List.nodup_nil
  · intro i hi
    rw [show (mkTable Key Elem hashsize).buckets
        = List.replicate hashsize [] from rfl, getD_replicate_nil]
    exact List.nodup_nil
  · trivial

theorem runOps_inv (getIndex : Key → ℕ) (hashsize : ℕ)
    (hIdx : ∀ k, getIndex k < hashsize) :
    ∀ (ops : List (TableOp Key Elem)) (t : RTPKeyHashTable Key Elem)
      (a : AbsTable Key Elem),
    Inv getIndex hashsize t a →
    Inv getIndex hashsize (runOps getIndex t ops) (runAbs a ops) := by
  intro ops
  induction ops with
  | nil => exact fun t a h => h
  | cons op ops ih =>
    intro t a h
    cases op with
    | add k e => exact ih _ _ (add_step getIndex hashsize hIdx t a h k e)
    | deleteKey k => exact ih _ _ (delkey_step getIndex hashsize hIdx t a h k)
    | deleteCur => exact ih _ _ (delcur_step getIndex hashsize hIdx t a h)

/-- Claim C8: for every sequence of `AddElement`, `DeleteElement` and
`DeleteCurrentElement` operations (with a `GetIndex` that respects
`hashsize`, as the template contract requires), the table's insertion-order
list and cursor coincide with those of the plain ordered map the spec calls
for, the bucket chains and the order list stay mutually consistent (`WF`:
both index exactly the currently stored key set, with correct hash indices
and no duplicates), and traversing with `GotoFirstElement` followed by
repeated `GotoNextElement` visits exactly the currently stored elements in
insertion order. -/
theorem keyhashtable_ops_consistent {Key Elem : Type} [DecidableEq Key]
    (getIndex : Key → ℕ) (hashsize : ℕ)
    (hIdx : ∀ k, getIndex k < hashsize) (ops : List (TableOp Key Elem)) :
    (runOps getIndex (mkTable Key Elem hashsize) ops).order
      = (runAbs (⟨[], none⟩ : AbsTable Key Elem) ops).order ∧
    (runOps getIndex (mkTable Key Elem hashsize) ops).cur
      = (runAbs (⟨[], none⟩ : AbsTable Key Elem) ops).cur ∧
    WF getIndex (runOps getIndex (mkTable Key Elem hashsize) ops) ∧
    traverse (runOps getIndex (mkTable Key Elem hashsize) ops)
      = (runOps getIndex (mkTable Key Elem hashsize) ops).order := by
  obtain ⟨ho, hc, hl, hwf⟩ :=
    runOps_inv getIndex hashsize hIdx ops _ _ (inv_mkTable getIndex hashsize)
  exact ⟨ho, hc, hwf, traverse_eq _ hwf.2.2.2.1⟩

/-- Witness for claim C8: a concrete run with inserts, a delete-by-key and a
delete-at-cursor over a 3-bucket table keyed by `k % 3`. -/
theorem keyhashtable_witness :
    (runOps (fun k => k % 3) (mkTable ℕ ℕ 3)
        [TableOp.add 1 10, TableOp.add 4 40, TableOp.add 2 20,
         TableOp.deleteKey 4, TableOp.deleteCur]).order
      = (runAbs (⟨[], none⟩ : AbsTable ℕ ℕ)
          [TableOp.add 1 10, TableOp.add 4 40, TableOp.add 2 20,
           TableOp.deleteKey 4, TableOp.deleteCur]).order ∧
    (runOps (fun k => k % 3) (mkTable ℕ ℕ 3)
        [TableOp.add 1 10, TableOp.add 4 40, TableOp.add 2 20,
         TableOp.deleteKey 4, TableOp.deleteCur]).cur
      = (runAbs (⟨[], none⟩ : AbsTable ℕ ℕ)
          [TableOp.add 1 10, TableOp.add 4 40, TableOp.add 2 20,
           TableOp.deleteKey 4, TableOp.deleteCur]).cur ∧
    WF (fun k => k % 3) (runOps (fun k => k % 3) (mkTable ℕ ℕ 3)
        [TableOp.add 1 10, TableOp.add 4 40, TableOp.add 2 20,
         TableOp.deleteKey 4, TableOp.deleteCur]) ∧
    traverse (runOps (fun k => k % 3) (mkTable ℕ ℕ 3)
        [TableOp.add 1 10, TableOp.add 4 40, TableOp.add 2 20,
         TableOp.deleteKey 4, TableOp.deleteCur])
      = (runOps (fun k => k % 3) (mkTable ℕ ℕ 3)
          [TableOp.add 1 10, TableOp.add 4 40, TableOp.add 2 20,
           TableOp.deleteKey 4, TableOp.deleteCur]).order :=
  keyhashtable_ops_consistent (fun k => k % 3) 3
    (fun k => Nat.mod_lt k (by norm_num))
    [TableOp.add 1 10, TableOp.add 4 40, TableOp.add 2 20,
     TableOp.deleteKey 4, TableOp.deleteCur]

/-- Claim C9: inserting a key already present in a consistent table fails
with the already-exists error and returns the table exactly as it was: no
allocation or relinking happens, the duplicate being detected by the bucket
search before the `RTPNew` call. -/
theorem addElement_duplicate_unchanged {Key Elem : Type} [DecidableEq Key]
    (getIndex : Key → ℕ) (t : RTPKeyHashTable Key Elem) (k : Key) (e : Elem)
    (hwf : WF getIndex t) (hblen : getIndex k < t.buckets.length)
    (hmem : k ∈ t.order.map Prod.fst) :
    AddElement getIndex t k e = (ERR_RTP_KEYHASHTABLE_KEYALREADYEXISTS, t) := by
  obtain ⟨w1, w2, w3, w4, w5, w6⟩ := hwf
  have hb : k ∈ t.buckets.getD (getIndex k) [] := w2 k hmem
  rw [AddElement]
  simp only [if_neg (by omega : ¬ (t.buckets.length ≤ getIndex k)), if_pos hb]

/-- Witness for claim C9: re-inserting key 5 into the table that already
holds it returns the duplicate error with the table unchanged. -/
theorem addElement_duplicate_witness :
    AddElement (fun k => k % 3)
      ((AddElement (fun k => k % 3) (mkTable ℕ ℕ 3) 5 7).2) 5 9
    = (ERR_RTP_KEYHASHTABLE_KEYALREADYEXISTS,
       (AddElement (fun k => k % 3) (mkTable ℕ ℕ 3) 5 7).2) :=
  addElement_duplicate_unchanged (fun k => k % 3) _ 5 9
    (add_step (fun k => k % 3) 3 (fun k => Nat.mod_lt k (by norm_num))
      (mkTable ℕ ℕ 3) ⟨[], none⟩ (inv_mkTable _ _) 5 7).2.2.2
    (by decide)
    (by decide)

end JRTP
